import Mathlib

/-!
Verification of the wire-calculator application core logic.

The definitions below are a shallow embedding of `wire_calculator_app.py`:
pure text matching (`parse_awg` and friends), the resistance tables, the
gauge selector `suggest_awg`, the run aggregation, the greedy packaging
planner, and the packaging-override parsing.  Python floats are modelled
as exact rationals; Python ints as `Int`/`Nat`.
-/

set_option maxRecDepth 10000

/-! ## Character classes used by the regular expressions -/

/-- Python regex `\s` over ASCII: space, tab, newline, carriage return,
vertical tab, form feed. -/
def isSpaceCh (c : Char) : Bool :=
  c == ' ' || c == '\t' || c == '\n' || c == '\r' || c == '\x0b' || c == '\x0c'

/-- Python regex `\w` over ASCII: letters, digits, underscore. -/
def isWordCh (c : Char) : Bool :=
  c.isAlphanum || c == '_'

/-- Case-insensitive match of the letter A (for the `AWG` token under `re.I`). -/
def isA (c : Char) : Bool := c == 'A' || c == 'a'

/-- Case-insensitive match of the letter W. -/
def isW (c : Char) : Bool := c == 'W' || c == 'w'

/-- Case-insensitive match of the letter G. -/
def isG (c : Char) : Bool := c == 'G' || c == 'g'

/-- Case-insensitive match of one concrete letter pair. -/
def ciEq (c lo up : Char) : Bool := c == lo || c == up

/-- Numeric value of a decimal digit character. -/
def digitVal (c : Char) : Nat := c.toNat - 48

/-- Greedy `\s*`: drop the maximal run of leading whitespace.  (Backtracking
to a shorter run can never help in the patterns below, because in each of
them the character required after `\s*` is never itself whitespace.) -/
def skipSpaces : List Char → List Char
  | [] => []
  | c :: cs => if isSpaceCh c then skipSpaces cs else c :: cs

/-- Word boundary `\b` placed after a word character: succeeds at end of
input or before a non-word character. -/
def boundaryOK : List Char → Bool
  | [] => true
  | c :: _ => !(isWordCh c)

/-! ## The AWG regex `(?:#?\s*)(\d{1,2})\s*AWG\b` from `parse_awg` -/

/-- Match the literal token `AWG` case-insensitively, returning the rest. -/
def awgTokenRest : List Char → Option (List Char)
  | a :: w :: g :: rest => if isA a && isW w && isG g then some rest else none
  | _ => none

/-- Match `\s*AWG\b`. -/
def awgTail (l : List Char) : Bool :=
  match awgTokenRest (skipSpaces l) with
  | some rest => boundaryOK rest
  | none => false

/-- Match `(\d{1,2})\s*AWG\b` anchored at the head of the list, with the
regex engine's greedy digit matching: two digits are tried before one. -/
def matchDigitsAWG : List Char → Option Nat
  | [] => none
  | d1 :: r1 =>
    if d1.isDigit then
      match r1 with
      | d2 :: r2 =>
        if d2.isDigit then
          if awgTail r2 then some (10 * digitVal d1 + digitVal d2)
          else if awgTail r1 then some (digitVal d1)
          else none
        else
          if awgTail r1 then some (digitVal d1) else none
      | [] => none
    else none

/-- Match the whole AWG pattern anchored at one position.  The greedy `#?`
is tried with the hash first; on failure the hash-less alternative is
attempted (it then reads the `#` as the start of `\s*\d{1,2}` and fails). -/
def matchAwgAt (l : List Char) : Option Nat :=
  match l with
  | [] => none
  | c :: rest =>
    if c = '#' then
      match matchDigitsAWG (skipSpaces rest) with
      | some n => some n
      | none => matchDigitsAWG (skipSpaces (c :: rest))
    else matchDigitsAWG (skipSpaces (c :: rest))

/-- `re.search` for the AWG pattern: leftmost match wins. -/
def findAwg : List Char → Option Nat
  | [] => none
  | c :: rest =>
    match matchAwgAt (c :: rest) with
    | some n => some n
    | none => findAwg rest

/-! ## The MCM regex `(\d{2,4})\s*(?:kcmil|MCM)\b` from `parse_awg` -/

/-- Match the token `MCM` case-insensitively. -/
def mcmShortTokenRest : List Char → Option (List Char)
  | m :: c :: m2 :: rest =>
    if ciEq m 'm' 'M' && ciEq c 'c' 'C' && ciEq m2 'm' 'M' then some rest else none
  | _ => none

/-- Match `kcmil|MCM` case-insensitively, trying `kcmil` first as the
regex alternation does. -/
def mcmTokenRest (l : List Char) : Option (List Char) :=
  match l with
  | k :: c :: m :: i :: l2 :: rest =>
    if ciEq k 'k' 'K' && ciEq c 'c' 'C' && ciEq m 'm' 'M' &&
       ciEq i 'i' 'I' && ciEq l2 'l' 'L' then some rest
    else mcmShortTokenRest (k :: c :: m :: i :: l2 :: rest)
  | _ => mcmShortTokenRest l

/-- Match `\s*(?:kcmil|MCM)\b`. -/
def mcmTail (l : List Char) : Bool :=
  match mcmTokenRest (skipSpaces l) with
  | some rest => boundaryOK rest
  | none => false

/-- Match `(\d{2,4})\s*(?:kcmil|MCM)\b` anchored at the head, greedy in
the digit count (4, then 3, then 2 digits). -/
def matchDigitsMCM : List Char → Option Nat
  | d1 :: d2 :: r2 =>
    if d1.isDigit && d2.isDigit then
      let v2 := 10 * digitVal d1 + digitVal d2
      match r2 with
      | d3 :: r3 =>
        if d3.isDigit then
          let v3 := 10 * v2 + digitVal d3
          match r3 with
          | d4 :: r4 =>
            if d4.isDigit then
              let v4 := 10 * v3 + digitVal d4
              if mcmTail r4 then some v4
              else if mcmTail r3 then some v3
              else if mcmTail r2 then some v2
              else none
            else if mcmTail r3 then some v3
            else if mcmTail r2 then some v2
            else none
          | [] =>
            if mcmTail r3 then some v3
            else if mcmTail r2 then some v2
            else none
        else if mcmTail r2 then some v2 else none
      | [] => if mcmTail r2 then some v2 else none
    else none
  | _ => none

/-- `re.search` for the MCM pattern. -/
def findMcm : List Char → Option Nat
  | [] => none
  | c :: rest =>
    match matchDigitsMCM (c :: rest) with
    | some n => some n
    | none => findMcm rest

/-- `parse_awg`: first the AWG pattern, then the kcmil/MCM fallback,
else `None`.  (An empty text trivially yields `none`, matching the
`if not text` guard.) -/
def parse_awg (l : List Char) : Option Nat :=
  match findAwg l with
  | some n => some n
  | none => findMcm l

/-! ## Resistance tables (ohms per 1000 ft) and gauge labels -/

/-- `COPPER_OHMS_PER_KFT`, as a key/value list in the dict's literal order
(which is already strictly descending in the key, so it equals
`sorted(table.keys(), reverse=True)` order). -/
def COPPER_OHMS_PER_KFT : List (Int × ℚ) :=
  [(14, 2.525), (12, 1.588), (10, 0.999), (8, 0.6282), (6, 0.3951),
   (4, 0.2485), (3, 0.1970), (2, 0.1563), (1, 0.1239), (0, 0.0983),
   (-1, 0.0779), (-2, 0.0618), (-3, 0.0490)]

/-- `AL_OHMS_PER_KFT`, key/value list in the dict's literal order
(strictly descending keys). -/
def AL_OHMS_PER_KFT : List (Int × ℚ) :=
  [(12, 2.52), (10, 1.588), (8, 0.999), (6, 0.6282), (4, 0.3951),
   (3, 0.3133), (2, 0.2485), (1, 0.1970), (0, 0.1563), (-1, 0.1239),
   (-2, 0.0983), (-3, 0.0779)]

/-- Table selection in `suggest_awg`: aluminum gets its table, everything
else defaults to copper. -/
def tableOf (material : String) : List (Int × ℚ) :=
  if material = ("aluminum") then AL_OHMS_PER_KFT else COPPER_OHMS_PER_KFT

/-- `awg_label`: non-negative codes print as plain `n AWG`; the negative
codes map to 2/0, 3/0, 4/0; anything else falls back to the bare number
(`mapping.get(n, f"{n}")`). -/
def awg_label (n : Int) : String :=
  if 0 ≤ n then toString n ++ (" AWG")
  else if n = -1 then ("2/0 AWG")
  else if n = -2 then ("3/0 AWG")
  else if n = -3 then ("4/0 AWG")
  else toString n

/-! ## `suggest_awg` -/

/-- The scan in `suggest_awg` over the sorted size codes: return the first
size whose computed drop satisfies the percentage bound, with that drop. -/
def suggestScan (amps volts one_way max_drop : ℚ) : List (Int × ℚ) → Option (Int × ℚ)
  | [] => none
  | (size, r) :: rest =>
    if (2 * amps * (r / 1000) * one_way / volts) * 100 ≤ max_drop
    then some (size, 2 * amps * (r / 1000) * one_way)
    else suggestScan amps volts one_way max_drop rest

/-- `suggest_awg`: scan the material's table thin-to-thick; if nothing
satisfies the bound, fall back to the last (thickest) size `sizes[-1]` with
its computed drop. -/
def suggest_awg (material : String) (amps volts one_way_length_ft max_drop_pct : ℚ) :
    Int × ℚ :=
  match suggestScan amps volts one_way_length_ft max_drop_pct (tableOf material) with
  | some res => res
  | none =>
    (((tableOf material).getLastD (0, 0)).1,
      2 * amps * ((((tableOf material).getLastD (0, 0)).2) / 1000) * one_way_length_ft)

/-! ## Run aggregation (the "Calculate Wire Needs" handler, lines 302-315) -/

/-- `effective_runs = [r*2 for r in run_lengths]` when round-trip, else the
run lengths unchanged. -/
def effective_runs (run_lengths : List ℚ) (use_round_trip : Bool) : List ℚ :=
  if use_round_trip then run_lengths.map (fun r => r * 2) else run_lengths

/-- `sum_runs = sum(effective_runs)`. -/
def sum_runs (run_lengths : List ℚ) (use_round_trip : Bool) : ℚ :=
  (effective_runs run_lengths use_round_trip).sum

/-- `total_slack = terminations * (slack_per_termination + vertical_allowance)`. -/
def total_slack (terminations : ℕ) (slack_per_termination vertical_allowance : ℚ) : ℚ :=
  (terminations : ℚ) * (slack_per_termination + vertical_allowance)

/-- `base_total = sum_runs + total_slack`. -/
def base_total (run_lengths : List ℚ) (use_round_trip : Bool) (terminations : ℕ)
    (slack_per_termination vertical_allowance : ℚ) : ℚ :=
  sum_runs run_lengths use_round_trip +
    total_slack terminations slack_per_termination vertical_allowance

/-- `total_with_waste = base_total * (1 + waste_pct / 100.0)`; this is also
`total_cable_feet`. -/
def total_cable_feet (run_lengths : List ℚ) (use_round_trip : Bool) (terminations : ℕ)
    (slack_per_termination vertical_allowance waste_pct : ℚ) : ℚ :=
  base_total run_lengths use_round_trip terminations slack_per_termination
    vertical_allowance * (1 + waste_pct / 100)

/-- `total_conductor_feet = total_with_waste * conductor_count`. -/
def total_conductor_feet (run_lengths : List ℚ) (use_round_trip : Bool) (terminations : ℕ)
    (slack_per_termination vertical_allowance waste_pct : ℚ) (conductor_count : ℕ) : ℚ :=
  total_cable_feet run_lengths use_round_trip terminations slack_per_termination
    vertical_allowance waste_pct * (conductor_count : ℚ)

/-! ## Greedy packaging plan (lines 385-404) -/

/-- The greedy loop: for each pack size in order, `count = int(remaining // p)`
then `remaining -= count * p`.  Returns the `[pack, count]` rows and the
final remainder. -/
def greedyLoop (remaining : ℚ) : List ℤ → List (ℤ × ℤ) × ℚ
  | [] => ([], remaining)
  | p :: ps =>
    let count : ℤ := ⌊remaining / (p : ℚ)⌋
    let rest := greedyLoop (remaining - (count : ℚ) * (p : ℚ)) ps
    ((p, count) :: rest.1, rest.2)

/-- `purchase_plan[-1][1] += 1`: increment the count of the last row. -/
def bumpLast : List (ℤ × ℤ) → List (ℤ × ℤ)
  | [] => []
  | [(p, c)] => [(p, c + 1)]
  | x :: y :: xs => x :: bumpLast (y :: xs)

/-- The whole packaging computation: greedy loop, add one smallest pack if a
remainder is left, keep only rows with `Quantity > 0`. -/
def purchase_plan (total : ℚ) (packs : List ℤ) : List (ℤ × ℤ) :=
  let g := greedyLoop total packs
  let plan := if 0 < g.2 then bumpLast g.1 else g.1
  plan.filter (fun e => 0 < e.2)

/-- Total footage covered by a plan: `sum(pack_length * quantity)`. -/
def planSum (plan : List (ℤ × ℤ)) : ℚ :=
  plan.foldr (fun e acc => (e.1 : ℚ) * (e.2 : ℚ) + acc) 0

/-! ## Packaging override parsing (lines 376-383) -/

/-- Decimal digit string to a natural number, most significant first. -/
def digitsToNat (l : List Char) : ℕ :=
  l.foldl (fun acc c => 10 * acc + digitVal c) 0

/-- Python `str.strip()`: drop leading and trailing whitespace. -/
def pyStrip (l : List Char) : List Char :=
  ((l.dropWhile isSpaceCh).reverse.dropWhile isSpaceCh).reverse

/-- Python `text.split(",")`: split at every comma, keeping empty pieces. -/
def splitComma : List Char → List (List Char)
  | [] => [[]]
  | c :: rest =>
    match splitComma rest with
    | [] => [[]]
    | t :: ts => if c = ',' then [] :: t :: ts else (c :: t) :: ts

/-- Rest of a CPython integer literal body after its first digit: further
digits, with single underscore separators permitted between digits only
(a trailing or doubled underscore is rejected). -/
def pyDigitsRest : List Char → Bool
  | [] => true
  | '_' :: [] => false
  | '_' :: c :: rest => c.isDigit && pyDigitsRest rest
  | c :: rest => c.isDigit && pyDigitsRest rest

/-- A sign-less CPython integer body: check the digits-with-separators
grammar (it must start with a digit, so no leading underscore), drop the
separators, read the digits. -/
def pyIntDigits (l : List Char) : Option ℤ :=
  match l with
  | c :: rest =>
    if c.isDigit && pyDigitsRest rest
    then some (digitsToNat ((c :: rest).filter (fun x => x ≠ '_')) : ℤ)
    else none
  | [] => none

/-- Python `int(token)` on an already-stripped ASCII token: an optional
sign followed by digits with underscore separators, as in CPython.
(CPython additionally accepts non-ASCII decimal digits; like the regex
character classes above, this model covers ASCII text.) -/
def pyInt (l : List Char) : Option ℤ :=
  match l with
  | '+' :: rest => pyIntDigits rest
  | '-' :: rest => Option.map Neg.neg (pyIntDigits rest)
  | _ => pyIntDigits l

/-- `int(x.strip()) for x in manual_pack.split(",") if x.strip()`: all kept
tokens must parse, otherwise the whole comprehension raises. -/
def parseTokens : List (List Char) → Option (List ℤ)
  | [] => some []
  | t :: ts =>
    match pyInt t, parseTokens ts with
    | some v, some vs => some (v :: vs)
    | _, _ => none

/-- Descending insertion. -/
def insertDesc (x : ℤ) : List ℤ → List ℤ
  | [] => [x]
  | y :: ys => if y ≤ x then x :: y :: ys else y :: insertDesc x ys

/-- `sorted(s, reverse=True)` of a finite set of integers, here reached by
sorting the deduplicated token values (ties cannot occur after `dedup`, so
any correct sort gives the `sorted` result). -/
def sortDesc (l : List ℤ) : List ℤ :=
  l.dedup.foldr insertDesc []

/-- The tokens the comprehension keeps: each piece stripped, blanks dropped. -/
def packTokens (s : List Char) : List (List Char) :=
  ((splitComma s).map pyStrip).filter (fun t => t ≠ [])

/-- `sorted({int(x.strip()) for x in manual_pack.split(",") if x.strip()},
reverse=True)`, with `none` when the comprehension raises `ValueError`. -/
def parse_manual_pack (s : List Char) : Option (List ℤ) :=
  (parseTokens (packTokens s)).map sortDesc

/-- The packaging branch for a non-blank override and no detected packaging:
first component is whether the parse error was reported, second is the
purchase plan shown (empty unless the greedy planner ran). -/
def packaging_outcome (manual_pack : List Char) (total : ℚ) : Bool × List (ℤ × ℤ) :=
  if pyStrip manual_pack ≠ [] then
    match parse_manual_pack manual_pack with
    | none => (true, [])
    | some packs => (false, if packs.isEmpty then [] else purchase_plan total packs)
  else (false, [])

/-! ## Per-run voltage-drop row (lines 338-356) -/

/-- One row of the per-run table: the selector is invoked only when amps,
volts and the one-way length are all positive; otherwise the gauge and drop
fields stay blank (`none`). -/
def per_run_result (mat : String) (amps volts max_drop one_way : ℚ) :
    Option (ℤ × ℚ × ℚ) :=
  if 0 < amps ∧ 0 < volts ∧ 0 < one_way then
    let sv := suggest_awg mat amps volts one_way max_drop
    some (sv.1, sv.2, sv.2 / volts * 100)
  else none












/-! ## C8: texts containing a `12 AWG` variant

`variant12` below enumerates the case/spacing variants of `12 AWG` (an
optional `#`, any amounts of spacing, any letter case), followed by an
arbitrary tail that keeps the word boundary after the token. -/

/-- A run of `n` spaces. -/
def spacesN : Nat → List Char
  | 0 => []
  | n + 1 => ' ' :: spacesN n

/-- The part of a `12 AWG` variant after the digits: inner spacing, the
case-variant `AWG` token, and the tail of the text. -/
def tail12 (b : Nat) (ca cw cg : Char) (t : List Char) : List Char :=
  spacesN b ++ ca :: cw :: cg :: t

/-- A `12 AWG` variant starting at its first digit. -/
def core12 (b : Nat) (ca cw cg : Char) (t : List Char) : List Char :=
  '1' :: '2' :: tail12 b ca cw cg t

/-- A full `12 AWG` variant: optional `#`, leading spacing, digits,
inner spacing, case-variant token, tail. -/
def variant12 (hash : Bool) (a b : Nat) (ca cw cg : Char) (t : List Char) : List Char :=
  (if hash then ['#'] else []) ++ spacesN a ++ core12 b ca cw cg t


/-! ## C7: strict monotonicity of both resistance tables -/

/-- C7: in both the copper and the aluminum tables, resistance strictly
decreases as the size code decreases: any entry with a smaller code has a
strictly smaller resistance. -/
theorem resistance_tables_strictly_monotone :
    (∀ p ∈ COPPER_OHMS_PER_KFT, ∀ q ∈ COPPER_OHMS_PER_KFT, q.1 < p.1 → q.2 < p.2) ∧
    (∀ p ∈ AL_OHMS_PER_KFT, ∀ q ∈ AL_OHMS_PER_KFT, q.1 < p.1 → q.2 < p.2) := by
  constructor
  · with_unfolding_all decide
  · with_unfolding_all decide

/-- Instance of C7 at the 2/0 and 3/0 copper entries. -/
theorem resistance_tables_strictly_monotone_witness :
    ((-2 : ℤ), (0.0618 : ℚ)).2 < ((-1 : ℤ), (0.0779 : ℚ)).2 :=
  resistance_tables_strictly_monotone.1 (-1, 0.0779) (by norm_num [COPPER_OHMS_PER_KFT])
    (-2, 0.0618) (by norm_num [COPPER_OHMS_PER_KFT]) (by norm_num)

/-! ## C9: gauge labels -/

/-- C9: every non-negative code renders as the plain number followed by
` AWG`, and the negative codes render as 2/0, 3/0, 4/0 AWG. -/
theorem awg_label_spec :
    (∀ n : ℤ, 0 ≤ n → awg_label n = toString n ++ (" AWG")) ∧
    awg_label 0 = ("0 AWG") ∧ awg_label 6 = ("6 AWG") ∧
    awg_label (-1) = ("2/0 AWG") ∧ awg_label (-2) = ("3/0 AWG") ∧
    awg_label (-3) = ("4/0 AWG") := by
  refine ⟨fun n h => ?_, ?_, ?_, ?_, ?_, ?_⟩
  · simp [awg_label, h]
  all_goals decide

/-- Instance of C9's universally quantified part at code 7. -/
theorem awg_label_spec_witness : awg_label 7 = ("7 AWG") :=
  (awg_label_spec.1 7 (by norm_num)).trans (by decide)

/-! ## C6: the caller's guard around the gauge selector -/

/-- C6: when amps, volts or the one-way length is non-positive, the per-run
row invokes no selector and leaves the gauge and drop fields blank. -/
theorem per_run_skips_nonpositive (mat : String) (amps volts max_drop one_way : ℚ)
    (h : amps ≤ 0 ∨ volts ≤ 0 ∨ one_way ≤ 0) :
    per_run_result mat amps volts max_drop one_way = none := by
  unfold per_run_result
  rw [if_neg]
  rintro ⟨h1, h2, h3⟩
  rcases h with h | h | h
  · exact absurd h1 (not_lt.mpr h)
  · exact absurd h2 (not_lt.mpr h)
  · exact absurd h3 (not_lt.mpr h)

/-- Instance of C6 at zero amps. -/
theorem per_run_skips_nonpositive_witness :
    (0 : ℚ) ≤ 0 ∧ per_run_result ("copper") 0 120 3 50 = none :=
  ⟨le_refl 0, per_run_skips_nonpositive ("copper") 0 120 3 50 (Or.inl (le_refl 0))⟩

/-! ## C2: the aggregation formulas -/

/-- Doubling every element doubles the sum. -/
theorem sum_map_double (l : List ℚ) : (l.map (fun r => r * 2)).sum = 2 * l.sum := by
  induction l with
  | nil => simp
  | cons x xs ih => simp [ih]; ring

/-- C2: the aggregation computes the spec formulas: element-wise effective
runs, their sum, the slack term, the waste multiplier and the conductor
multiplier; with round-trip on, the run sum is twice the raw sum. -/
theorem aggregate_formulas (run_lengths : List ℚ) (use_round_trip : Bool)
    (terminations conductor_count : ℕ) (slack_per vertical waste_pct : ℚ) :
    (∀ (i : ℕ) (r : ℚ), run_lengths[i]? = some r →
      (effective_runs run_lengths use_round_trip)[i]? =
        some (if use_round_trip then 2 * r else r)) ∧
    sum_runs run_lengths use_round_trip =
      (if use_round_trip then 2 * run_lengths.sum else run_lengths.sum) ∧
    total_slack terminations slack_per vertical =
      (terminations : ℚ) * (slack_per + vertical) ∧
    total_cable_feet run_lengths use_round_trip terminations slack_per vertical waste_pct =
      (sum_runs run_lengths use_round_trip + (terminations : ℚ) * (slack_per + vertical)) *
        (1 + waste_pct / 100) ∧
    total_conductor_feet run_lengths use_round_trip terminations slack_per vertical
        waste_pct conductor_count =
      total_cable_feet run_lengths use_round_trip terminations slack_per vertical waste_pct *
        (conductor_count : ℚ) := by
  refine ⟨fun i r hr => ?_, ?_, rfl, rfl, rfl⟩
  · cases use_round_trip with
    | false => simpa [effective_runs] using hr
    | true => simp [effective_runs, List.getElem?_map, hr, mul_comm]
  · cases use_round_trip with
    | false => simp [sum_runs, effective_runs]
    | true => simp [sum_runs, effective_runs, sum_map_double]

/-- Instance of C2: runs of 50, 75 and 100 ft with round-trip on sum to
450 effective feet, and the first effective run is 100. -/
theorem aggregate_formulas_witness :
    sum_runs [50, 75, 100] true = 450 ∧
    (effective_runs [50, 75, 100] true)[0]? = some 100 := by
  have h := aggregate_formulas [50, 75, 100] true 10 1 2 0 10
  constructor
  · rw [h.2.1]; norm_num
  · have h0 := h.1 0 50 (by norm_num)
    rw [h0]; norm_num

/-! ## C1 and C4: the gauge selector -/

/-- Both material tables are strictly descending in the size code, so the
scan visits size codes from largest to smallest. -/
theorem tableOf_pairwise (material : String) :
    (tableOf material).Pairwise (fun x y => y.1 < x.1) := by
  unfold tableOf
  split
  · decide
  · decide

/-- A successful scan returns a table entry together with its computed
drop, and that drop satisfies the bound. -/
theorem suggestScan_some_spec (A V L M : ℚ) (l : List (Int × ℚ)) (res : Int × ℚ)
    (h : suggestScan A V L M l = some res) :
    ∃ r0, (res.1, r0) ∈ l ∧ res.2 = 2 * A * (r0 / 1000) * L ∧
      (res.2 / V) * 100 ≤ M := by
  induction l with
  | nil => simp [suggestScan] at h
  | cons hd tl ih =>
    obtain ⟨s, r⟩ := hd
    rw [suggestScan] at h
    split at h
    · obtain rfl : (s, 2 * A * (r / 1000) * L) = res := by simpa using h
      exact ⟨r, List.mem_cons_self .., rfl, by assumption⟩
    · obtain ⟨r0, hm, he, hs⟩ := ih h
      exact ⟨r0, List.mem_cons_of_mem _ hm, he, hs⟩

/-- If some entry satisfies the bound, the scan succeeds. -/
theorem suggestScan_isSome (A V L M : ℚ) (l : List (Int × ℚ)) (s : ℤ) (r : ℚ)
    (hmem : (s, r) ∈ l) (hsat : (2 * A * (r / 1000) * L / V) * 100 ≤ M) :
    (suggestScan A V L M l).isSome := by
  induction l with
  | nil => simp at hmem
  | cons hd tl ih =>
    obtain ⟨s1, r1⟩ := hd
    rw [suggestScan]
    split
    · simp
    · rcases List.mem_cons.mp hmem with heq | hm
      · obtain ⟨rfl, rfl⟩ := Prod.mk.injEq .. ▸ heq
        · simp_all
      · exact ih hm

/-- On a strictly descending table, a successful scan returns the largest
size code satisfying the bound. -/
theorem suggestScan_max (A V L M : ℚ) (l : List (Int × ℚ))
    (hpw : l.Pairwise (fun x y => y.1 < x.1)) (res : Int × ℚ)
    (h : suggestScan A V L M l = some res) :
    ∀ p ∈ l, (2 * A * (p.2 / 1000) * L / V) * 100 ≤ M → p.1 ≤ res.1 := by
  induction l with
  | nil => simp [suggestScan] at h
  | cons hd tl ih =>
    obtain ⟨s, r⟩ := hd
    rw [suggestScan] at h
    rw [List.pairwise_cons] at hpw
    intro p hp hsatp
    split at h
    · obtain rfl : (s, 2 * A * (r / 1000) * L) = res := by simpa using h
      rcases List.mem_cons.mp hp with heq | hm
      · rw [heq]
      · exact le_of_lt (hpw.1 p hm)
    · rcases List.mem_cons.mp hp with heq | hm
      · exact absurd (by rw [heq] at hsatp; exact hsatp) (by assumption)
      · exact ih hpw.2 h p hm hsatp

/-- C1: when some table entry satisfies the drop bound, `suggest_awg`
returns a table entry with its computed drop, the drop satisfies the bound,
and the returned size code is the largest one in the table whose computed
drop percentage is within the bound. -/
theorem suggest_awg_picks_largest_satisfying (material : String)
    (amps volts one_way max_drop : ℚ)
    (_hA : 0 < amps) (_hV : 0 < volts) (_hL : 0 < one_way)
    (s : ℤ) (r : ℚ) (hmem : (s, r) ∈ tableOf material)
    (hsat : (2 * amps * (r / 1000) * one_way / volts) * 100 ≤ max_drop) :
    ∃ r0, ((suggest_awg material amps volts one_way max_drop).1, r0) ∈ tableOf material ∧
      (suggest_awg material amps volts one_way max_drop).2 =
        2 * amps * (r0 / 1000) * one_way ∧
      ((suggest_awg material amps volts one_way max_drop).2 / volts) * 100 ≤ max_drop ∧
      ∀ p ∈ tableOf material,
        (2 * amps * (p.2 / 1000) * one_way / volts) * 100 ≤ max_drop →
          p.1 ≤ (suggest_awg material amps volts one_way max_drop).1 := by
  have hs := suggestScan_isSome amps volts one_way max_drop (tableOf material) s r hmem hsat
  obtain ⟨res, hres⟩ := Option.isSome_iff_exists.mp hs
  have hdef : suggest_awg material amps volts one_way max_drop = res := by
    unfold suggest_awg
    rw [hres]
  obtain ⟨r0, hm, he, hb⟩ :=
    suggestScan_some_spec amps volts one_way max_drop (tableOf material) res hres
  rw [hdef]
  exact ⟨r0, hm, he, hb,
    suggestScan_max amps volts one_way max_drop (tableOf material)
      (tableOf_pairwise material) res hres⟩

/-- Instance of C1: `select_gauge("copper", amps=20, volts=120,
one_way_ft=100, max_drop_pct=3)` returns size code 8 with drop 2.5128 V
(2.094 %), and 8 is the largest satisfying code. -/
theorem suggest_awg_picks_largest_satisfying_witness :
    suggest_awg ("copper") 20 120 100 3 = (8, 3141/1250) ∧
    (∃ r0, ((suggest_awg ("copper") 20 120 100 3).1, r0) ∈ tableOf ("copper") ∧
      (suggest_awg ("copper") 20 120 100 3).2 = 2 * 20 * (r0 / 1000) * 100 ∧
      ((suggest_awg ("copper") 20 120 100 3).2 / 120) * 100 ≤ 3 ∧
      ∀ p ∈ tableOf ("copper"),
        (2 * 20 * (p.2 / 1000) * 100 / 120) * 100 ≤ 3 →
          p.1 ≤ (suggest_awg ("copper") 20 120 100 3).1) :=
  ⟨by norm_num [suggest_awg, suggestScan, tableOf, COPPER_OHMS_PER_KFT],
   suggest_awg_picks_largest_satisfying ("copper") 20 120 100 3
     (by norm_num) (by norm_num) (by norm_num) 8 0.6282
     (by rw [tableOf, if_neg (by decide)]; norm_num [COPPER_OHMS_PER_KFT]) (by norm_num)⟩

/-- If no entry satisfies the bound, the scan fails. -/
theorem suggestScan_none_of_unsat (A V L M : ℚ) (l : List (Int × ℚ))
    (h : ∀ p ∈ l, ¬((2 * A * (p.2 / 1000) * L / V) * 100 ≤ M)) :
    suggestScan A V L M l = none := by
  induction l with
  | nil => rfl
  | cons hd tl ih =>
    obtain ⟨s, r⟩ := hd
    rw [suggestScan]
    rw [if_neg (h (s, r) (List.mem_cons_self ..))]
    exact ih fun p hp => h p (List.mem_cons_of_mem _ hp)

/-- The fallback row is the last entry of the table. -/
theorem tableOf_getLastD_mem (material : String) :
    (tableOf material).getLastD (0, 0) ∈ tableOf material := by
  unfold tableOf
  split
  · simp [AL_OHMS_PER_KFT]
  · simp [COPPER_OHMS_PER_KFT]

/-- The last entry of the table carries the smallest size code. -/
theorem tableOf_getLastD_min (material : String) :
    ∀ p ∈ tableOf material, ((tableOf material).getLastD (0, 0)).1 ≤ p.1 := by
  unfold tableOf
  split
  · decide
  · decide

/-- C4: when no table entry satisfies the drop bound, `suggest_awg` still
returns a value: the last (thickest, smallest-code) entry of the table,
paired with that entry's actually computed drop, and that drop exceeds the
bound. -/
theorem suggest_awg_fallback (material : String) (amps volts one_way max_drop : ℚ)
    (_hA : 0 < amps) (_hV : 0 < volts) (_hL : 0 < one_way)
    (hall : ∀ p ∈ tableOf material,
      ¬((2 * amps * (p.2 / 1000) * one_way / volts) * 100 ≤ max_drop)) :
    suggest_awg material amps volts one_way max_drop =
      (((tableOf material).getLastD (0, 0)).1,
        2 * amps * ((((tableOf material).getLastD (0, 0)).2) / 1000) * one_way) ∧
    (∀ p ∈ tableOf material, ((tableOf material).getLastD (0, 0)).1 ≤ p.1) ∧
    ¬(((suggest_awg material amps volts one_way max_drop).2 / volts) * 100 ≤ max_drop) := by
  have hnone := suggestScan_none_of_unsat amps volts one_way max_drop (tableOf material) hall
  have hdef : suggest_awg material amps volts one_way max_drop =
      (((tableOf material).getLastD (0, 0)).1,
        2 * amps * ((((tableOf material).getLastD (0, 0)).2) / 1000) * one_way) := by
    unfold suggest_awg
    rw [hnone]
  refine ⟨hdef, tableOf_getLastD_min material, ?_⟩
  rw [hdef]
  exact hall _ (tableOf_getLastD_mem material)

/-- Instance of C4: copper, 100 A over 1000 ft one-way at 120 V with a 3 %
budget: even 4/0 exceeds the bound, and `suggest_awg` returns the 4/0 row
with its computed 9.8 V drop. -/
theorem suggest_awg_fallback_witness :
    suggest_awg ("copper") 100 120 1000 3 =
      (((tableOf ("copper")).getLastD (0, 0)).1,
        2 * 100 * ((((tableOf ("copper")).getLastD (0, 0)).2) / 1000) * 1000) ∧
    (∀ p ∈ tableOf ("copper"), ((tableOf ("copper")).getLastD (0, 0)).1 ≤ p.1) ∧
    ¬(((suggest_awg ("copper") 100 120 1000 3).2 / 120) * 100 ≤ 3) :=
  suggest_awg_fallback ("copper") 100 120 1000 3 (by norm_num) (by norm_num) (by norm_num)
    (by with_unfolding_all decide)

/-! ## C3: the greedy packaging plan covers the requirement -/

/-- `planSum` on an empty plan. -/
theorem planSum_nil : planSum [] = 0 := rfl

/-- `planSum` on a row followed by a plan. -/
theorem planSum_cons (p c : ℤ) (t : List (ℤ × ℤ)) :
    planSum ((p, c) :: t) = (p : ℚ) * (c : ℚ) + planSum t := rfl

/-- Dropping zero-quantity rows does not change the covered footage. -/
theorem planSum_filter_pos (l : List (ℤ × ℤ)) (h : ∀ e ∈ l, 0 ≤ e.2) :
    planSum (l.filter fun e => 0 < e.2) = planSum l := by
  induction l with
  | nil => rfl
  | cons e t ih =>
    obtain ⟨p, c⟩ := e
    have hc : (0 : ℤ) ≤ c := h (p, c) (List.mem_cons_self ..)
    have ht := ih fun x hx => h x (List.mem_cons_of_mem _ hx)
    by_cases hpos : (0 : ℤ) < c
    · rw [List.filter_cons_of_pos (by simpa using hpos), planSum_cons, ht, planSum_cons]
    · have hc0 : c = 0 := le_antisymm (not_lt.mp hpos) hc
      rw [List.filter_cons_of_neg (by simpa using hpos), ht, planSum_cons, hc0]
      push_cast
      ring

/-- Bumping the last row keeps all quantities non-negative. -/
theorem bumpLast_nonneg (l : List (ℤ × ℤ)) (h : ∀ e ∈ l, 0 ≤ e.2) :
    ∀ e ∈ bumpLast l, 0 ≤ e.2 := by
  induction l with
  | nil => simp [bumpLast]
  | cons x xs ih =>
    obtain ⟨p, c⟩ := x
    cases xs with
    | nil =>
      intro e he
      simp only [bumpLast, List.mem_singleton] at he
      subst he
      have := h (p, c) (List.mem_cons_self ..)
      simp only []
      omega
    | cons y ys =>
      intro e he
      rw [show bumpLast ((p, c) :: y :: ys) = (p, c) :: bumpLast (y :: ys) from rfl] at he
      rcases List.mem_cons.mp he with rfl | hm
      · exact h (p, c) (List.mem_cons_self ..)
      · exact ih (fun z hz => h z (List.mem_cons_of_mem _ hz)) e hm

/-- Invariant of the greedy loop: the plan plus the remainder always equals
the requirement; a non-negative requirement keeps the remainder and all
counts non-negative; and the final remainder is below the last (smallest)
pack size, which is also what bumping the last row adds. -/
theorem greedyLoop_spec (packs : List ℤ) (r : ℚ) (hpos : ∀ p ∈ packs, (0:ℤ) < p) :
    planSum (greedyLoop r packs).1 + (greedyLoop r packs).2 = r ∧
    (0 ≤ r → 0 ≤ (greedyLoop r packs).2 ∧ ∀ e ∈ (greedyLoop r packs).1, 0 ≤ e.2) ∧
    (∀ lp, packs.getLast? = some lp →
      (greedyLoop r packs).2 < (lp : ℚ) ∧
      planSum (bumpLast (greedyLoop r packs).1) =
        planSum (greedyLoop r packs).1 + (lp : ℚ)) := by
  induction packs generalizing r with
  | nil =>
    refine ⟨by simp [greedyLoop, planSum_nil], fun h => ⟨by simpa [greedyLoop] using h, by simp [greedyLoop]⟩, fun lp hlp => by simp at hlp⟩
  | cons p ps ih =>
    have hp : (0 : ℤ) < p := hpos p (List.mem_cons_self ..)
    have hpQ : (0 : ℚ) < (p : ℚ) := by exact_mod_cast hp
    have hps : ∀ q ∈ ps, (0:ℤ) < q := fun q hq => hpos q (List.mem_cons_of_mem _ hq)
    have hred : greedyLoop r (p :: ps) =
        ((p, ⌊r / (p : ℚ)⌋) ::
          (greedyLoop (r - (⌊r / (p : ℚ)⌋ : ℚ) * (p : ℚ)) ps).1,
          (greedyLoop (r - (⌊r / (p : ℚ)⌋ : ℚ) * (p : ℚ)) ps).2) := rfl
    have ihr := ih (r - (⌊r / (p : ℚ)⌋ : ℚ) * (p : ℚ)) hps
    refine ⟨?_, ?_, ?_⟩
    · rw [hred, planSum_cons]
      have := ihr.1
      push_cast
      push_cast at this
      linarith
    · intro hr
      have hc : (0 : ℤ) ≤ ⌊r / (p : ℚ)⌋ :=
        Int.floor_nonneg.mpr (div_nonneg hr hpQ.le)
      have hr1 : (0 : ℚ) ≤ r - (⌊r / (p : ℚ)⌋ : ℚ) * (p : ℚ) := by
        have hle : (⌊r / (p : ℚ)⌋ : ℚ) ≤ r / (p : ℚ) := Int.floor_le _
        have := (mul_le_mul_right hpQ).mpr hle
        rw [div_mul_cancel₀ r hpQ.ne.symm] at this
        linarith
      obtain ⟨h1, h2⟩ := ihr.2.1 hr1
      refine ⟨by rw [hred]; exact h1, ?_⟩
      rw [hred]
      intro e he
      rcases List.mem_cons.mp he with rfl | hm
      · exact hc
      · exact h2 e hm
    · intro lp hlp
      cases ps with
      | nil =>
        obtain rfl : p = lp := by simpa using hlp
        have hfloor : r < ((⌊r / (p : ℚ)⌋ : ℚ) + 1) * (p : ℚ) := by
          have hlt : r / (p : ℚ) < (⌊r / (p : ℚ)⌋ : ℚ) + 1 := Int.lt_floor_add_one _
          have := (mul_lt_mul_right hpQ).mpr hlt
          rw [div_mul_cancel₀ r hpQ.ne.symm] at this
          linarith
        constructor
        · rw [hred]
          show (greedyLoop (r - (⌊r / (p : ℚ)⌋ : ℚ) * (p : ℚ)) []).2 < (p : ℚ)
          rw [show (greedyLoop (r - (⌊r / (p : ℚ)⌋ : ℚ) * (p : ℚ)) []).2 =
            r - (⌊r / (p : ℚ)⌋ : ℚ) * (p : ℚ) from rfl]
          nlinarith
        · rw [hred]
          show planSum (bumpLast [(p, ⌊r / (p : ℚ)⌋)]) =
            planSum [(p, ⌊r / (p : ℚ)⌋)] + (p : ℚ)
          rw [show bumpLast [(p, ⌊r / (p : ℚ)⌋)] = [(p, ⌊r / (p : ℚ)⌋ + 1)] from rfl]
          rw [planSum_cons, planSum_cons, planSum_nil]
          push_cast
          ring
      | cons q qs =>
        have hlp2 : (q :: qs).getLast? = some lp := by
          rw [← hlp]
          exact (List.getLast?_cons_cons ..).symm
        obtain ⟨ih1, ih2⟩ := ihr.2.2 lp hlp2
        constructor
        · rw [hred]
          exact ih1
        · rw [hred]
          have hshape : ∃ c0 t0,
              (greedyLoop (r - (⌊r / (p : ℚ)⌋ : ℚ) * (p : ℚ)) (q :: qs)).1 = c0 :: t0 :=
            ⟨_, _, rfl⟩
          obtain ⟨c0, t0, hsh⟩ := hshape
          rw [hsh]
          rw [show bumpLast ((p, ⌊r / (p : ℚ)⌋) :: c0 :: t0) =
            (p, ⌊r / (p : ℚ)⌋) :: bumpLast (c0 :: t0) from rfl]
          obtain ⟨cp, cc⟩ := c0
          rw [hsh] at ih2
          simp only [planSum_cons] at ih2 ⊢
          rw [ih2]
          ring

/-- C3: for a positive requirement and a non-empty descending list of
positive pack sizes, the greedy plan (with the final round-up row and
zero-quantity rows filtered out) covers the requirement:
`sum(pack_length * quantity) >= total_ft`. -/
theorem purchase_plan_covers (total : ℚ) (packs : List ℤ)
    (htot : 0 < total) (hne : packs ≠ [])
    (hpos : ∀ p ∈ packs, (0:ℤ) < p)
    (_hsorted : packs.Pairwise (· > ·)) :
    total ≤ planSum (purchase_plan total packs) := by
  obtain ⟨lp, hlp⟩ := Option.isSome_iff_exists.mp (List.getLast?_isSome.mpr hne)
  have hspec := greedyLoop_spec packs total hpos
  have hsum := hspec.1
  obtain ⟨hrem0, hent⟩ := hspec.2.1 htot.le
  obtain ⟨hlt, hbump⟩ := hspec.2.2 lp hlp
  simp only [purchase_plan]
  by_cases hrem : 0 < (greedyLoop total packs).2
  · rw [if_pos hrem]
    rw [planSum_filter_pos _ (bumpLast_nonneg _ hent)]
    rw [hbump]
    linarith
  · rw [if_neg hrem]
    rw [planSum_filter_pos _ hent]
    have : (greedyLoop total packs).2 = 0 := le_antisymm (not_lt.mp hrem) hrem0
    linarith

/-- Instance of C3: 1200 ft with packs of 500 and 250 gives two 500 ft
packs and one 250 ft pack, covering 1250 >= 1200 ft. -/
theorem purchase_plan_covers_witness :
    purchase_plan 1200 [500, 250] = [(500, 2), (250, 1)] ∧
    (1200 : ℚ) ≤ planSum (purchase_plan 1200 [500, 250]) :=
  ⟨by norm_num [purchase_plan, greedyLoop, bumpLast],
   purchase_plan_covers 1200 [500, 250] (by norm_num) (by simp)
     (by decide) (by decide)⟩

/-! ## C5: packaging-override parsing -/

/-- C5 counterexample: the override text `-5` is non-blank and does not
denote a set of *positive* integers, yet `int()` accepts it, so no parse
error is reported and the planner branch runs on the pack list `[-5]`. -/
theorem override_negative_not_rejected :
    pyStrip (("-5").data) ≠ [] ∧
    parse_manual_pack (("-5").data) = some [-5] ∧
    ¬(∀ x ∈ [(-5 : ℤ)], 0 < x) ∧
    (packaging_outcome (("-5").data) 100).1 = false :=
  ⟨by decide, by decide, by decide, by decide⟩

/-- The model follows CPython's underscore rules: single separators
between digits parse (so an override like `2_5` builds `packs=[25]` and is
not a parse error), while leading, trailing or doubled underscores raise. -/
theorem pyInt_underscore_separators :
    pyInt (("2_5").data) = some 25 ∧ pyInt (("5_2_0").data) = some 520 ∧
    pyInt (("-2_5").data) = some (-25) ∧ pyInt (("2__5").data) = none ∧
    pyInt (("2_").data) = none ∧ pyInt (("_5").data) = none ∧
    (packaging_outcome (("2_5").data) 100).1 = false := by
  decide

/-- If some kept token fails `int()`, the whole comprehension raises. -/
theorem parseTokens_none (l : List (List Char)) (t : List Char)
    (ht : t ∈ l) (hbad : pyInt t = none) : parseTokens l = none := by
  induction l with
  | nil => simp at ht
  | cons u us ih =>
    rw [parseTokens]
    rcases List.mem_cons.mp ht with rfl | hm
    · rw [hbad]
    · rw [ih hm]
      cases pyInt u <;> rfl

/-- C5 amended: the parse error is reported (and the plan left empty)
exactly when some kept comma-separated token fails to parse as a Python
integer; sets containing zero or negative integers are accepted and the
planner runs on them. -/
theorem override_parse_error_skips_planner (s : List Char) (total : ℚ)
    (hnb : pyStrip s ≠ [])
    (hbad : ∃ t ∈ packTokens s, pyInt t = none) :
    packaging_outcome s total = (true, []) := by
  obtain ⟨t, ht, hbadt⟩ := hbad
  have hnone : parseTokens (packTokens s) = none := parseTokens_none _ t ht hbadt
  unfold packaging_outcome
  rw [if_pos hnb]
  unfold parse_manual_pack
  rw [hnone]
  rfl

/-- Instance of the amended C5 at the malformed override `abc`. -/
theorem override_parse_error_skips_planner_witness :
    pyStrip (("abc").data) ≠ [] ∧
    (∃ t ∈ packTokens (("abc").data), pyInt t = none) ∧
    packaging_outcome (("abc").data) 100 = (true, []) :=
  ⟨by decide, by decide,
   override_parse_error_skips_planner (("abc").data) 100 (by decide) (by decide)⟩

/-! ## C10: a three-digit number before `AWG` yields its last two digits -/

/-- A digit is not the hash character. -/
theorem digit_ne_hash (c : Char) (h : c.isDigit = true) : c ≠ '#' := by
  rintro rfl
  exact absurd h (by decide)

/-- A digit is not regex whitespace. -/
theorem isSpaceCh_of_digit (c : Char) (h : c.isDigit = true) : isSpaceCh c = false := by
  have h1 : c ≠ ' ' := by rintro rfl; exact absurd h (by decide)
  have h2 : c ≠ '\t' := by rintro rfl; exact absurd h (by decide)
  have h3 : c ≠ '\n' := by rintro rfl; exact absurd h (by decide)
  have h4 : c ≠ '\r' := by rintro rfl; exact absurd h (by decide)
  have h5 : c ≠ '\x0b' := by rintro rfl; exact absurd h (by decide)
  have h6 : c ≠ '\x0c' := by rintro rfl; exact absurd h (by decide)
  simp [isSpaceCh, h1, h2, h3, h4, h5, h6]

/-- A digit is not a letter A. -/
theorem isA_of_digit (c : Char) (h : c.isDigit = true) : isA c = false := by
  have h1 : c ≠ 'A' := by rintro rfl; exact absurd h (by decide)
  have h2 : c ≠ 'a' := by rintro rfl; exact absurd h (by decide)
  simp [isA, h1, h2]

/-- `\s*` does not move past a non-space character. -/
theorem skipSpaces_cons_nonspace (c : Char) (l : List Char) (h : isSpaceCh c = false) :
    skipSpaces (c :: l) = c :: l := by
  simp [skipSpaces, h]

/-- `\s*AWG\b` fails on a list starting with a digit. -/
theorem awgTail_digit_head (c : Char) (l : List Char) (h : c.isDigit = true) :
    awgTail (c :: l) = false := by
  unfold awgTail
  rw [skipSpaces_cons_nonspace c l (isSpaceCh_of_digit c h)]
  cases l with
  | nil => rfl
  | cons y t =>
    cases t with
    | nil => rfl
    | cons z t2 =>
      simp [awgTokenRest, isA_of_digit c h]

/-- At a position that is not a hash, the AWG pattern is `\s*` then digits. -/
theorem matchAwgAt_cons_nonhash (c : Char) (l : List Char) (h : c ≠ '#') :
    matchAwgAt (c :: l) = matchDigitsAWG (skipSpaces (c :: l)) := by
  rw [matchAwgAt, if_neg h]

/-- Reduction of the digit matcher on two leading digits. -/
theorem matchDigitsAWG_two_digits (a b : Char) (r2 : List Char)
    (ha : a.isDigit = true) (hb : b.isDigit = true) :
    matchDigitsAWG (a :: b :: r2) =
      (if awgTail r2 then some (10 * digitVal a + digitVal b)
       else if awgTail (b :: r2) then some (digitVal a) else none) := by
  rw [matchDigitsAWG, ha, hb]
  rfl

/-- Scanning a run of digits ending in `<a><b> AWG`: every position leaves
the regex stuck against a further digit until the final two digits, which
match and capture the value of the last two digits. -/
theorem findAwg_digit_run (ds : List Char) (a b : Char)
    (hds : ∀ c ∈ ds, c.isDigit = true) (ha : a.isDigit = true) (hb : b.isDigit = true) :
    findAwg (ds ++ a :: b :: ' ' :: 'A' :: 'W' :: 'G' :: []) =
      some (10 * digitVal a + digitVal b) := by
  induction ds with
  | nil =>
    rw [List.nil_append, findAwg]
    rw [matchAwgAt_cons_nonhash a _ (digit_ne_hash a ha)]
    rw [skipSpaces_cons_nonspace a _ (isSpaceCh_of_digit a ha)]
    rw [matchDigitsAWG_two_digits a b _ ha hb]
    rw [if_pos (show awgTail (' ' :: 'A' :: 'W' :: 'G' :: []) = true from by decide)]
  | cons d ds' ih =>
    have hd : d.isDigit = true := hds d (List.mem_cons_self ..)
    have hds' : ∀ c ∈ ds', c.isDigit = true :=
      fun c hc => hds c (List.mem_cons_of_mem _ hc)
    rw [List.cons_append, findAwg]
    have hmat : matchAwgAt (d :: (ds' ++ a :: b :: ' ' :: 'A' :: 'W' :: 'G' :: [])) =
        none := by
      rw [matchAwgAt_cons_nonhash d _ (digit_ne_hash d hd)]
      rw [skipSpaces_cons_nonspace d _ (isSpaceCh_of_digit d hd)]
      cases ds' with
      | nil =>
        rw [List.nil_append]
        rw [matchDigitsAWG_two_digits d a _ hd ha]
        rw [if_neg (by simp [awgTail_digit_head b _ hb])]
        rw [if_neg (by simp [awgTail_digit_head a _ ha])]
      | cons e ds'' =>
        have he : e.isDigit = true := hds' e (List.mem_cons_self ..)
        rw [List.cons_append]
        rw [matchDigitsAWG_two_digits d e _ hd he]
        have htail : awgTail (ds'' ++ a :: b :: ' ' :: 'A' :: 'W' :: 'G' :: []) = false := by
          cases ds'' with
          | nil =>
            rw [List.nil_append]
            exact awgTail_digit_head a _ ha
          | cons f ds3 =>
            have hf : f.isDigit = true :=
              hds' f (List.mem_cons_of_mem _ (List.mem_cons_self ..))
            rw [List.cons_append]
            exact awgTail_digit_head f _ hf
        rw [if_neg (by simp [htail])]
        rw [if_neg (by simp [awgTail_digit_head e _ he])]
    rw [hmat]
    exact ih hds'

/-- C10: the AWG regex has no word boundary before its one-or-two-digit
group, so for a run of three or more digits before ` AWG` the leftmost
successful match starts at the second-to-last digit: `parse_awg` returns
the number formed by the last two digits instead of rejecting the text or
returning the full number. -/
theorem parse_awg_digit_run_truncates (ds : List Char) (a b : Char)
    (_hne : ds ≠ []) (hds : ∀ c ∈ ds, c.isDigit = true)
    (ha : a.isDigit = true) (hb : b.isDigit = true) :
    parse_awg (ds ++ a :: b :: (" AWG").data) = some (10 * digitVal a + digitVal b) := by
  unfold parse_awg
  have hdata : (" AWG").data = ' ' :: 'A' :: 'W' :: 'G' :: [] := rfl
  rw [hdata, findAwg_digit_run ds a b hds ha hb]

/-- Instance of C10: `parse_awg("120 AWG")` returns 20. -/
theorem parse_awg_digit_run_truncates_witness :
    (['1'] : List Char) ≠ [] ∧ parse_awg (("120 AWG").data) = some 20 := by
  refine ⟨by decide, ?_⟩
  have h := parse_awg_digit_run_truncates ['1'] '2' '0' (by decide)
    (by decide) (by decide) (by decide)
  exact h

/-- `\s*` steps over one space. -/
theorem skipSpaces_cons_space (c : Char) (l : List Char) (h : isSpaceCh c = true) :
    skipSpaces (c :: l) = skipSpaces l := by
  simp [skipSpaces, h]

/-- `\s*` swallows a run of spaces before anything else. -/
theorem skipSpaces_spacesN (n : Nat) (l : List Char) :
    skipSpaces (spacesN n ++ l) = skipSpaces l := by
  induction n with
  | zero => rfl
  | succ n ih => simpa [spacesN, skipSpaces] using ih

/-- Case-variant letters of `A` are not whitespace. -/
theorem isA_not_space (c : Char) (h : isA c = true) : isSpaceCh c = false := by
  have : c = 'A' ∨ c = 'a' := by simpa [isA] using h
  rcases this with rfl | rfl <;> decide

/-- The inner part of a variant is a successful `\s*AWG\b` match. -/
theorem awgTail_tail12 (b : Nat) (ca cw cg : Char) (t : List Char)
    (hca : isA ca = true) (hcw : isW cw = true) (hcg : isG cg = true)
    (ht : boundaryOK t = true) :
    awgTail (tail12 b ca cw cg t) = true := by
  unfold awgTail tail12
  rw [skipSpaces_spacesN]
  rw [skipSpaces_cons_nonspace _ _ (isA_not_space ca hca)]
  rw [show awgTokenRest (ca :: cw :: cg :: t) =
    (if isA ca && isW cw && isG cg then some t else none) from rfl]
  rw [hca, hcw, hcg]
  simpa using ht

/-- The digit matcher accepts a variant from its first digit, capturing 12. -/
theorem matchDigitsAWG_core12 (b : Nat) (ca cw cg : Char) (t : List Char)
    (hca : isA ca = true) (hcw : isW cw = true) (hcg : isG cg = true)
    (ht : boundaryOK t = true) :
    matchDigitsAWG (core12 b ca cw cg t) = some 12 := by
  unfold core12
  rw [matchDigitsAWG_two_digits '1' '2' _ (by decide) (by decide)]
  rw [if_pos (awgTail_tail12 b ca cw cg t hca hcw hcg ht)]
  decide

/-- Same, after the leading spacing has been swallowed. -/
theorem matchDigitsAWG_spaces_core12 (a b : Nat) (ca cw cg : Char) (t : List Char)
    (hca : isA ca = true) (hcw : isW cw = true) (hcg : isG cg = true)
    (ht : boundaryOK t = true) :
    matchDigitsAWG (skipSpaces (spacesN a ++ core12 b ca cw cg t)) = some 12 := by
  rw [skipSpaces_spacesN]
  rw [show skipSpaces (core12 b ca cw cg t) = core12 b ca cw cg t from
    skipSpaces_cons_nonspace '1' _ (by decide)]
  exact matchDigitsAWG_core12 b ca cw cg t hca hcw hcg ht

/-- The nondigit matcher refuses any list led by a non-digit. -/
theorem matchDigitsAWG_cons_nondigit (c : Char) (l : List Char) (h : c.isDigit = false) :
    matchDigitsAWG (c :: l) = none := by
  cases l <;> simp [matchDigitsAWG, h]

/-- The AWG pattern matches anywhere a variant starts, capturing 12. -/
theorem matchAwgAt_variant12 (hash : Bool) (a b : Nat) (ca cw cg : Char) (t : List Char)
    (hca : isA ca = true) (hcw : isW cw = true) (hcg : isG cg = true)
    (ht : boundaryOK t = true) :
    matchAwgAt (variant12 hash a b ca cw cg t) = some 12 := by
  cases hash with
  | true =>
    show matchAwgAt ('#' :: (spacesN a ++ core12 b ca cw cg t)) = some 12
    rw [matchAwgAt, if_pos rfl]
    rw [matchDigitsAWG_spaces_core12 a b ca cw cg t hca hcw hcg ht]
  | false =>
    cases a with
    | zero =>
      show matchAwgAt ('1' :: ('2' :: tail12 b ca cw cg t)) = some 12
      rw [matchAwgAt_cons_nonhash _ _ (by decide)]
      exact matchDigitsAWG_spaces_core12 0 b ca cw cg t hca hcw hcg ht
    | succ a' =>
      show matchAwgAt (' ' :: (spacesN a' ++ core12 b ca cw cg t)) = some 12
      rw [matchAwgAt_cons_nonhash _ _ (by decide)]
      rw [skipSpaces_cons_space ' ' _ (by decide)]
      exact matchDigitsAWG_spaces_core12 a' b ca cw cg t hca hcw hcg ht

/-- Structure of a variant: it has at least two characters, its head is
`#`, a space or `1` (so never a letter W or G), and the only way its head
is a digit is the bare `12 AWG` form. -/
theorem variant12_shape (hash : Bool) (a b : Nat) (ca cw cg : Char) (t : List Char) :
    ∃ c0 c1 l, variant12 hash a b ca cw cg t = c0 :: c1 :: l ∧
      isW c0 = false ∧ isG c0 = false ∧
      (c0.isDigit = true → c0 = '1' ∧ c1 = '2' ∧ l = tail12 b ca cw cg t) := by
  cases hash with
  | true =>
    cases a with
    | zero =>
      exact ⟨'#', '1', '2' :: tail12 b ca cw cg t, rfl, by decide, by decide,
        fun h => absurd h (by decide)⟩
    | succ a' =>
      exact ⟨'#', ' ', spacesN a' ++ core12 b ca cw cg t, rfl, by decide, by decide,
        fun h => absurd h (by decide)⟩
  | false =>
    cases a with
    | zero =>
      exact ⟨'1', '2', tail12 b ca cw cg t, rfl, by decide, by decide,
        fun _ => ⟨rfl, rfl, rfl⟩⟩
    | succ a' =>
      cases a' with
      | zero =>
        exact ⟨' ', '1', '2' :: tail12 b ca cw cg t, rfl, by decide, by decide,
          fun h => absurd h (by decide)⟩
      | succ a'' =>
        exact ⟨' ', ' ', spacesN a'' ++ core12 b ca cw cg t, rfl, by decide, by decide,
          fun h => absurd h (by decide)⟩

/-- The token matcher cannot produce a match whose second letter starts a
variant. -/
theorem awgTokenRest_cons_variant (x : Char) (hash : Bool) (a b : Nat)
    (ca cw cg : Char) (t : List Char) :
    awgTokenRest (x :: variant12 hash a b ca cw cg t) = none := by
  obtain ⟨c0, c1, l, hs, hw0, _, _⟩ := variant12_shape hash a b ca cw cg t
  rw [hs]
  simp [awgTokenRest, hw0]

/-- Nor one whose third letter starts a variant. -/
theorem awgTokenRest_cons2_variant (x y : Char) (hash : Bool) (a b : Nat)
    (ca cw cg : Char) (t : List Char) :
    awgTokenRest (x :: y :: variant12 hash a b ca cw cg t) = none := by
  obtain ⟨c0, c1, l, hs, _, hg0, _⟩ := variant12_shape hash a b ca cw cg t
  rw [hs]
  simp [awgTokenRest, hg0]

/-- The first character of a variant is never a space. -/
theorem tail12_exists_cons (b : Nat) (ca cw cg : Char) (t : List Char) :
    ∃ y l, tail12 b ca cw cg t = y :: l := by
  cases b with
  | zero => exact ⟨ca, cw :: cg :: t, rfl⟩
  | succ b' => exact ⟨' ', spacesN b' ++ ca :: cw :: cg :: t, rfl⟩

/-- The token matcher also fails at a variant itself, before its digits. -/
theorem awgTokenRest_skip_variant (hash : Bool) (a b : Nat)
    (ca cw cg : Char) (t : List Char) :
    awgTokenRest (skipSpaces (variant12 hash a b ca cw cg t)) = none := by
  cases hash with
  | true =>
    rw [show variant12 true a b ca cw cg t =
      '#' :: (spacesN a ++ core12 b ca cw cg t) from rfl]
    rw [skipSpaces_cons_nonspace _ _ (by decide)]
    exact awgTokenRest_cons_variant '#' false a b ca cw cg t
  | false =>
    rw [show variant12 false a b ca cw cg t = spacesN a ++ core12 b ca cw cg t from rfl]
    rw [skipSpaces_spacesN]
    rw [show skipSpaces (core12 b ca cw cg t) = core12 b ca cw cg t from
      skipSpaces_cons_nonspace '1' _ (by decide)]
    obtain ⟨y, l, hy⟩ := tail12_exists_cons b ca cw cg t
    rw [show core12 b ca cw cg t = '1' :: '2' :: tail12 b ca cw cg t from rfl, hy]
    simp [awgTokenRest, isA]

/-- `\s*AWG\b` fails at a variant's own start. -/
theorem awgTail_variant_false (hash : Bool) (a b : Nat)
    (ca cw cg : Char) (t : List Char) :
    awgTail (variant12 hash a b ca cw cg t) = false := by
  unfold awgTail
  rw [awgTokenRest_skip_variant hash a b ca cw cg t]

/-- Splitting `\s*` over an append whose left part is all spaces. -/
theorem skipSpaces_append_all_space (w r : List Char) (h : w.all isSpaceCh = true) :
    skipSpaces (w ++ r) = skipSpaces r := by
  induction w with
  | nil => rfl
  | cons c w' ih =>
    rw [List.all_cons, Bool.and_eq_true] at h
    rw [List.cons_append, skipSpaces_cons_space c _ h.1]
    exact ih h.2

/-- Splitting `\s*` over an append whose left part has a non-space: the
scan stops inside the left part. -/
theorem skipSpaces_append_not_all (w r : List Char) (h : w.all isSpaceCh = false) :
    ∃ x xs, skipSpaces w = x :: xs ∧ isSpaceCh x = false ∧
      skipSpaces (w ++ r) = x :: (xs ++ r) := by
  induction w with
  | nil => simp at h
  | cons c w' ih =>
    rw [List.all_cons, Bool.and_eq_false_iff] at h
    by_cases hc : isSpaceCh c = true
    · have hw' : w'.all isSpaceCh = false := by
        rcases h with h | h
        · rw [hc] at h; simp at h
        · exact h
      obtain ⟨x, xs, h1, h2, h3⟩ := ih hw'
      refine ⟨x, xs, ?_, h2, ?_⟩
      · rw [skipSpaces_cons_space c _ hc, h1]
      · rw [List.cons_append, skipSpaces_cons_space c _ hc, h3]
    · have hc' : isSpaceCh c = false := by simpa using hc
      exact ⟨c, w', skipSpaces_cons_nonspace c _ hc', hc',
        by rw [List.cons_append, skipSpaces_cons_nonspace c _ hc']⟩

/-- Appending a variant to a failed `\s*AWG\b` position cannot make it
succeed: the variant's first characters cannot complete a token, and a
mid-word boundary failure stays a failure. -/
theorem awgTail_append_variant (w : List Char) (hash : Bool) (a b : Nat)
    (ca cw cg : Char) (t : List Char) (hw : awgTail w = false) :
    awgTail (w ++ variant12 hash a b ca cw cg t) = false := by
  by_cases hall : w.all isSpaceCh = true
  · unfold awgTail
    rw [skipSpaces_append_all_space w _ hall]
    rw [awgTokenRest_skip_variant hash a b ca cw cg t]
  · obtain ⟨x, xs, h1, h2, h3⟩ := skipSpaces_append_not_all w _ (by simpa using hall)
    unfold awgTail at hw ⊢
    rw [h3]
    rw [h1] at hw
    cases xs with
    | nil =>
      rw [List.nil_append]
      rw [awgTokenRest_cons_variant x hash a b ca cw cg t]
    | cons y ys =>
      cases ys with
      | nil =>
        rw [List.cons_append, List.nil_append]
        rw [awgTokenRest_cons2_variant x y hash a b ca cw cg t]
      | cons z zs =>
        rw [List.cons_append, List.cons_append]
        rw [show awgTokenRest (x :: y :: z :: (zs ++ variant12 hash a b ca cw cg t)) =
          (if isA x && isW y && isG z
           then some (zs ++ variant12 hash a b ca cw cg t) else none) from rfl]
        rw [show awgTokenRest (x :: y :: z :: zs) =
          (if isA x && isW y && isG z then some zs else none) from rfl] at hw
        by_cases hcond : (isA x && isW y && isG z) = true
        · rw [if_pos hcond] at hw ⊢
          cases zs with
          | nil => simp [boundaryOK] at hw
          | cons u us =>
            rw [List.cons_append]
            simpa [boundaryOK] using hw
        · rw [if_neg hcond] at hw ⊢

/-- Reduction of the digit matcher on a digit followed by a non-digit. -/
theorem matchDigitsAWG_digit_nondigit (a b : Char) (r2 : List Char)
    (ha : a.isDigit = true) (hb : b.isDigit = false) :
    matchDigitsAWG (a :: b :: r2) =
      (if awgTail (b :: r2) then some (digitVal a) else none) := by
  rw [matchDigitsAWG, ha, hb]
  simp

/-- The scan value at a variant's own start: capture 12 for the hash-less
forms, where the position begins with `\s*` then the digits; the hash form
matched from its own position-after-`#` is handled by `matchAwgAt`. -/
theorem matchDigitsAWG_skip_variant (hash : Bool) (a b : Nat)
    (ca cw cg : Char) (t : List Char)
    (hca : isA ca = true) (hcw : isW cw = true) (hcg : isG cg = true)
    (ht : boundaryOK t = true) :
    matchDigitsAWG (skipSpaces (variant12 hash a b ca cw cg t)) = some 12 ∨
    matchDigitsAWG (skipSpaces (variant12 hash a b ca cw cg t)) = none := by
  cases hash with
  | true =>
    right
    rw [show variant12 true a b ca cw cg t =
      '#' :: (spacesN a ++ core12 b ca cw cg t) from rfl]
    rw [skipSpaces_cons_nonspace _ _ (by decide)]
    exact matchDigitsAWG_cons_nondigit '#' _ (by decide)
  | false =>
    left
    rw [show variant12 false a b ca cw cg t = spacesN a ++ core12 b ca cw cg t from rfl]
    exact matchDigitsAWG_spaces_core12 a b ca cw cg t hca hcw hcg ht

/-- Appending a variant to a failed digit-match position cannot make it
succeed: any digits at the position still fail to reach a token, because
the variant brings its own digits first. -/
theorem matchDigitsAWG_append_variant (u : List Char) (hash : Bool) (a b : Nat)
    (ca cw cg : Char) (t : List Char)
    (hne : u ≠ []) (hu : matchDigitsAWG u = none) :
    matchDigitsAWG (u ++ variant12 hash a b ca cw cg t) = none := by
  obtain ⟨c, u', rfl⟩ := List.exists_cons_of_ne_nil hne
  by_cases hd : c.isDigit = true
  · cases u' with
    | nil =>
      obtain ⟨c0, c1, l, hs, hw0, hg0, hdig⟩ := variant12_shape hash a b ca cw cg t
      rw [List.cons_append, List.nil_append, hs]
      by_cases hd0 : c0.isDigit = true
      · obtain ⟨rfl, rfl, rfl⟩ := hdig hd0
        rw [matchDigitsAWG_two_digits c '1' _ hd (by decide)]
        rw [if_neg (by simp [awgTail_digit_head '2' _ (by decide)])]
        rw [if_neg (by simp [awgTail_digit_head '1' _ (by decide)])]
      · have hvar : awgTail (c0 :: c1 :: l) = false := by
          rw [← hs]
          exact awgTail_variant_false hash a b ca cw cg t
        rw [matchDigitsAWG_digit_nondigit c c0 _ hd (by simpa using hd0)]
        rw [if_neg (by simp [hvar])]
    | cons d2 u'' =>
      rw [List.cons_append, List.cons_append]
      by_cases hd2 : d2.isDigit = true
      · rw [matchDigitsAWG_two_digits c d2 _ hd hd2] at hu
        have h1 : awgTail u'' = false := by
          by_cases hx : awgTail u'' = true
          · rw [if_pos hx] at hu; simp at hu
          · simpa using hx
        have h2 : awgTail (d2 :: u'') = false := by
          by_cases hx : awgTail (d2 :: u'') = true
          · rw [if_neg (by simp [h1]), if_pos hx] at hu; simp at hu
          · simpa using hx
        rw [matchDigitsAWG_two_digits c d2 _ hd hd2]
        rw [if_neg (by simp [awgTail_append_variant u'' hash a b ca cw cg t h1])]
        have := awgTail_append_variant (d2 :: u'') hash a b ca cw cg t h2
        rw [List.cons_append] at this
        rw [if_neg (by simp [this])]
      · rw [matchDigitsAWG_digit_nondigit c d2 _ hd (by simpa using hd2)] at hu
        have h2 : awgTail (d2 :: u'') = false := by
          by_cases hx : awgTail (d2 :: u'') = true
          · rw [if_pos hx] at hu; simp at hu
          · simpa using hx
        rw [matchDigitsAWG_digit_nondigit c d2 _ hd (by simpa using hd2)]
        have := awgTail_append_variant (d2 :: u'') hash a b ca cw cg t h2
        rw [List.cons_append] at this
        rw [if_neg (by simp [this])]
  · rw [List.cons_append]
    exact matchDigitsAWG_cons_nondigit c _ (by simpa using hd)

/-- Appending a variant to a failed whole-pattern position gives either
still no match or the match that captures 12. -/
theorem matchAwgAt_append_variant (c : Char) (q2 : List Char) (hash : Bool) (a b : Nat)
    (ca cw cg : Char) (t : List Char)
    (hca : isA ca = true) (hcw : isW cw = true) (hcg : isG cg = true)
    (ht : boundaryOK t = true)
    (hq : matchAwgAt (c :: q2) = none) :
    matchAwgAt (c :: (q2 ++ variant12 hash a b ca cw cg t)) = none ∨
    matchAwgAt (c :: (q2 ++ variant12 hash a b ca cw cg t)) = some 12 := by
  by_cases hc : c = '#'
  · subst hc
    rw [matchAwgAt, if_pos rfl] at hq
    have hq1 : matchDigitsAWG (skipSpaces q2) = none := by
      cases hmk : matchDigitsAWG (skipSpaces q2) with
      | none => rfl
      | some n => rw [hmk] at hq; simp at hq
    rw [matchAwgAt, if_pos rfl]
    by_cases hall : q2.all isSpaceCh = true
    · rw [skipSpaces_append_all_space q2 _ hall]
      rcases matchDigitsAWG_skip_variant hash a b ca cw cg t hca hcw hcg ht with h12 | h0
      · right
        rw [h12]
      · left
        rw [h0]
        rw [show skipSpaces ('#' :: (q2 ++ variant12 hash a b ca cw cg t)) =
          '#' :: (q2 ++ variant12 hash a b ca cw cg t) from
          skipSpaces_cons_nonspace _ _ (by decide)]
        exact matchDigitsAWG_cons_nondigit '#' _ (by decide)
    · obtain ⟨x, xs, h1, h3, h4⟩ := skipSpaces_append_not_all q2 _ (by simpa using hall)
      left
      rw [h4]
      have hx : matchDigitsAWG (x :: xs) = none := by rw [← h1]; exact hq1
      have hd := matchDigitsAWG_append_variant (x :: xs) hash a b ca cw cg t (by simp) hx
      rw [List.cons_append] at hd
      rw [hd]
      rw [show skipSpaces ('#' :: (q2 ++ variant12 hash a b ca cw cg t)) =
        '#' :: (q2 ++ variant12 hash a b ca cw cg t) from
        skipSpaces_cons_nonspace _ _ (by decide)]
      exact matchDigitsAWG_cons_nondigit '#' _ (by decide)
  · rw [matchAwgAt_cons_nonhash c _ hc] at hq
    rw [matchAwgAt_cons_nonhash c _ hc]
    rw [show (c :: (q2 ++ variant12 hash a b ca cw cg t)) =
      ((c :: q2) ++ variant12 hash a b ca cw cg t) from rfl]
    by_cases hall : (c :: q2).all isSpaceCh = true
    · rw [skipSpaces_append_all_space _ _ hall]
      rcases matchDigitsAWG_skip_variant hash a b ca cw cg t hca hcw hcg ht with h12 | h0
      · right; exact h12
      · left; exact h0
    · obtain ⟨x, xs, h1, h3, h4⟩ := skipSpaces_append_not_all (c :: q2) _ (by simpa using hall)
      left
      rw [h4]
      have hx : matchDigitsAWG (x :: xs) = none := by rw [← h1]; exact hq
      have hd := matchDigitsAWG_append_variant (x :: xs) hash a b ca cw cg t (by simp) hx
      rw [List.cons_append] at hd
      exact hd

/-- The scan over a text with no AWG match, extended by a variant, reaches
the variant and captures 12. -/
theorem findAwg_append_variant (p : List Char) (hash : Bool) (a b : Nat)
    (ca cw cg : Char) (t : List Char)
    (hca : isA ca = true) (hcw : isW cw = true) (hcg : isG cg = true)
    (ht : boundaryOK t = true) (hp : findAwg p = none) :
    findAwg (p ++ variant12 hash a b ca cw cg t) = some 12 := by
  induction p with
  | nil =>
    rw [List.nil_append]
    obtain ⟨c0, c1, l, hs, _, _, _⟩ := variant12_shape hash a b ca cw cg t
    have hm := matchAwgAt_variant12 hash a b ca cw cg t hca hcw hcg ht
    rw [hs] at hm ⊢
    rw [findAwg, hm]
  | cons c p' ih =>
    have hsplit : matchAwgAt (c :: p') = none ∧ findAwg p' = none := by
      rw [findAwg] at hp
      cases hm : matchAwgAt (c :: p') with
      | some n => rw [hm] at hp; simp at hp
      | none => rw [hm] at hp; exact ⟨rfl, hp⟩
    rw [List.cons_append, findAwg]
    rcases matchAwgAt_append_variant c p' hash a b ca cw cg t
      hca hcw hcg ht hsplit.1 with h | h
    · rw [h]
      exact ih hsplit.2
    · rw [h]

/-- C8 counterexample: `"6 AWG 12 AWG"` contains the substring `"12 AWG"`
yet `parse_awg` returns 6, because the first match wins; and `"12 AWGs"`
contains the substring `"12 AWG"` yet `parse_awg` returns nothing, because
the word boundary after `AWG` fails. -/
theorem parse_awg_contains_twelve_insufficient :
    ("6 AWG ").data ++ ("12 AWG").data = ("6 AWG 12 AWG").data ∧
    parse_awg (("6 AWG 12 AWG").data) = some 6 ∧
    ("12 AWG").data ++ (['s'] : List Char) = ("12 AWGs").data ∧
    parse_awg (("12 AWGs").data) = none :=
  ⟨by decide, by decide, by decide, by decide⟩

/-- C8 amended: `parse_awg` returns 12 on any text built from a prefix with
no AWG-pattern match of its own, followed by any case/spacing/`#` variant
of `12 AWG`, followed by any tail that does not break the word boundary
after the token (first match wins, so an earlier match or a word character
directly after `AWG` must be excluded). -/
theorem parse_awg_twelve_first_match (p : List Char) (hash : Bool) (a b : Nat)
    (ca cw cg : Char) (t : List Char)
    (hp : parse_awg p = none)
    (hca : isA ca = true) (hcw : isW cw = true) (hcg : isG cg = true)
    (ht : boundaryOK t = true) :
    parse_awg (p ++ variant12 hash a b ca cw cg t) = some 12 := by
  have hfind : findAwg p = none := by
    unfold parse_awg at hp
    cases hm : findAwg p with
    | none => rfl
    | some n => rw [hm] at hp; simp at hp
  unfold parse_awg
  rw [findAwg_append_variant p hash a b ca cw cg t hca hcw hcg ht hfind]

/-- Instance of the amended C8: a matchless prefix followed by the variant
`#12 awg` parses as gauge 12. -/
theorem parse_awg_twelve_first_match_witness :
    parse_awg (("no gauge here ").data) = none ∧
    parse_awg (("no gauge here ").data ++ variant12 true 0 1 'a' 'w' 'g' []) = some 12 :=
  ⟨by decide,
   parse_awg_twelve_first_match (("no gauge here ").data) true 0 1 'a' 'w' 'g' []
     (by decide) (by decide) (by decide) (by decide) (by decide)⟩
